import Mathlib

/-!
Verification of the emg3d multigrid solver specification against its source.

The definitions below are shallow embeddings of the corresponding Python
routines of the repository:

* `emg3d/maps.py`   : the six property maps (forward/backward).
* `emg3d/fields.py` : `Field.__init__` dtype logic and `Field.sval`.
* `emg3d/solver.py` : the cycmax policy of `multigrid`, the termination
  checks of the top-level cycle loop, the entry/exit conjugation and the
  early-exit check of `solver`, the `ldir`-degeneration of `smoothing`,
  the coarsening-direction selection, the model restriction `restr`, and
  the `maxit`/`ssl_maxit` handling of `MGParameters.__post_init__`.

Numerical kernels that live outside the translated sources (the numba
module `njitted.py` and the field container `utils.py`) are modelled from
the specification where a claim needs them; those definitions carry a
doc comment starting with `Modelled from the spec:`.
-/

namespace Emg3d

/-! ## Property maps (`emg3d/maps.py`) -/

/-- MapConductivity.forward: x = sigma. -/
def mapConductivityForward (conductivity : ℝ) : ℝ := conductivity

/-- MapConductivity.backward: sigma = x. -/
def mapConductivityBackward (mapped : ℝ) : ℝ := mapped

/-- MapLgConductivity.forward: x = log_10(sigma). -/
noncomputable def mapLgConductivityForward (conductivity : ℝ) : ℝ :=
  Real.logb 10 conductivity

/-- MapLgConductivity.backward: sigma = 10^x. -/
noncomputable def mapLgConductivityBackward (mapped : ℝ) : ℝ :=
  (10 : ℝ) ^ mapped

/-- MapLnConductivity.forward: x = log_e(sigma). -/
noncomputable def mapLnConductivityForward (conductivity : ℝ) : ℝ :=
  Real.log conductivity

/-- MapLnConductivity.backward: sigma = exp(x). -/
noncomputable def mapLnConductivityBackward (mapped : ℝ) : ℝ :=
  Real.exp mapped

/-- MapResistivity.forward: x = 1/sigma. -/
noncomputable def mapResistivityForward (conductivity : ℝ) : ℝ := 1.0 / conductivity

/-- MapResistivity.backward: sigma = 1/x. -/
noncomputable def mapResistivityBackward (mapped : ℝ) : ℝ := 1.0 / mapped

/-- MapLgResistivity.forward: x = log_10(1/sigma). -/
noncomputable def mapLgResistivityForward (conductivity : ℝ) : ℝ :=
  Real.logb 10 (1.0 / conductivity)

/-- MapLgResistivity.backward: sigma = 10^(-x). -/
noncomputable def mapLgResistivityBackward (mapped : ℝ) : ℝ :=
  (10 : ℝ) ^ (-mapped)

/-- MapLnResistivity.forward: x = log_e(1/sigma). -/
noncomputable def mapLnResistivityForward (conductivity : ℝ) : ℝ :=
  Real.log (1.0 / conductivity)

/-- MapLnResistivity.backward: sigma = exp(-x). -/
noncomputable def mapLnResistivityBackward (mapped : ℝ) : ℝ :=
  Real.exp (-mapped)

/-! ## Field dtype and Laplace parameter (`emg3d/fields.py`) -/

/-- Data type of the stored field, after `Field.__init__` has resolved it. -/
inductive FieldDtype where
  | complex128
  | float64
deriving DecidableEq, Repr

/-- Error raised by `Field.__init__` when the frequency is zero. -/
inductive FieldInitError where
  | zeroFrequencyValueError
deriving DecidableEq, Repr

/-- Dtype resolution of `Field.__init__` when a frequency is given: positive
frequencies give complex128, negative frequencies give float64, and zero
raises a ValueError. -/
def fieldDtypeOfFrequency (frequency : ℚ) : Except FieldInitError FieldDtype :=
  if frequency > 0 then Except.ok FieldDtype.complex128
  else if frequency < 0 then Except.ok FieldDtype.float64
  else Except.error FieldInitError.zeroFrequencyValueError

/-- Laplace parameter `Field.sval`: s = f for f < 0 (Laplace domain), and
s = -2i*pi*f otherwise (frequency domain). -/
noncomputable def fieldSval (frequency : ℚ) : ℂ :=
  if frequency < 0 then (frequency : ℂ)
  else -2 * Real.pi * (frequency : ℂ) * Complex.I

/-! ## Cycmax policy of `multigrid` (`emg3d/solver.py`) -/

/-- Multigrid cycle type as accepted by `MGParameters` (None excluded; the
cycmax policy is only consulted when a cycle is set). -/
inductive MGCycle where
  | V
  | W
  | F
deriving DecidableEq, Repr

/-- Value `var.cycmax` set in `MGParameters.__post_init__`: 2 for the F- and
W-cycles, 1 otherwise. -/
def paramsCycmax (cycle : MGCycle) : ℕ :=
  match cycle with
  | MGCycle.F => 2
  | MGCycle.W => 2
  | MGCycle.V => 1

/-- Local `cycmax` computed at the head of `multigrid`: 1 on the coarsest
level, `var.cycmax` when `new_cycmax` is 0 or the cycle is not F, and
`new_cycmax` otherwise. -/
def getCycmax (cycle : MGCycle) (varCycmax : ℕ) (clevelRdir level newCycmax : ℕ) : ℕ :=
  if level = clevelRdir then 1
  else if newCycmax = 0 ∨ cycle ≠ MGCycle.F then varCycmax
  else newCycmax

/-- Argument `new_cycmax` that `multigrid` passes to its recursive call:
`cycmax - cyc`, where `cyc` counts the completed coarse-grid visits. -/
def recursionNewCycmax (cycmax cyc : ℕ) : ℕ := cycmax - cyc

end Emg3d

namespace Emg3d

/-! ## Entry/exit conjugation of `solver` (`emg3d/solver.py`) -/

/-- Conjugation applied by `solver` to the whole edge field, on entry for a
caller-supplied field and on exit for the returned field. -/
def conjField (e : List ℂ) : List ℂ := e.map (starRingEnd ℂ)

/-- Field handling of `solver` for a caller-supplied initial field: the
field is conjugated on entry, the internal computation transforms it, and
the result is conjugated on exit. -/
def solverFieldPipeline (internal : List ℂ → List ℂ) (efield : List ℂ) : List ℂ :=
  conjField (internal (conjField efield))

end Emg3d

namespace Emg3d

/-! ## Top-level cycle loop of `multigrid` (`emg3d/solver.py`)

The loop is parametrised by the sequence `r` of residual l2-norms, where
`r k` is `l2_last` after `k` completed top-level cycles (`r 0` is the norm
on entering the loop), by the reference norm `l2refe` (the norm of the
source field), and by `l2init` (the `l2_last` stored before the initial
smoothing). All decisions of the loop depend only on these quantities. -/

/-- Exit reason of the standalone top-level multigrid cycle loop. -/
inductive MGExit where
  | converged
  | diverged
  | stagnated
  | maxIterReached
deriving DecidableEq, Repr

/-- Termination check run at the end of each top-level cycle when the
sslsolver is disabled, in source order: converged, diverged, stagnated,
maximum iterations. -/
def mgCheck (tol l2refe l2init : ℚ) (maxit : ℕ) (r : ℕ → ℚ) (it : ℕ) :
    Option MGExit :=
  if r it < tol * l2refe then some MGExit.converged
  else if r it > 10 * l2init then some MGExit.diverged
  else if 2 < it ∧ r (it - 1) ≤ r it then some MGExit.stagnated
  else if it = maxit then some MGExit.maxIterReached
  else none

/-- The cycle loop itself: starting at iteration `it`, run a full cycle,
apply the termination check, and either stop or continue with `it + 1`.
`fuel` bounds the recursion; `maxit` steps always suffice. -/
def mgLoop (tol l2refe l2init : ℚ) (maxit : ℕ) (r : ℕ → ℚ) :
    ℕ → ℕ → Option (ℕ × MGExit)
  | 0, _ => none
  | fuel + 1, it =>
    match mgCheck tol l2refe l2init maxit r it with
    | some e => some (it, e)
    | none => mgLoop tol l2refe l2init maxit r fuel (it + 1)

/-- A standalone multigrid solve (sslsolver disabled): the cycle loop is
entered with iteration count 1 after the first full cycle. -/
def multigridStandalone (tol l2refe l2init : ℚ) (maxit : ℕ) (r : ℕ → ℚ) :
    Option (ℕ × MGExit) :=
  mgLoop tol l2refe l2init maxit r maxit 1

/-! ## Early exit of `solver` for a supplied initial field -/

/-- Outcome of `solver` as far as iteration counts are concerned: whether
the main solver was run at all, and the number of multigrid cycles
performed (`var.it`). -/
structure SolverOutcome where
  ranSolver : Bool
  mgIterations : ℕ
deriving DecidableEq, Repr

/-- Control flow of `solver` when a caller supplies an initial efield and
multigrid is the main solver: the residual norm `rnorm` of the (conjugated)
supplied field is compared against `tol` times the source-field norm
`bnorm`; if it is strictly smaller, nothing is run, otherwise the
standalone multigrid loop runs. -/
def solverWithInitialEfield (tol bnorm rnorm l2init : ℚ) (maxit : ℕ)
    (r : ℕ → ℚ) : SolverOutcome :=
  if rnorm < tol * bnorm then
    { ranSolver := false, mgIterations := 0 }
  else
    { ranSolver := true
      mgIterations :=
        match multigridStandalone tol bnorm l2init maxit r with
        | some p => p.1
        | none => 0 }

/-! ## `maxit` handling of `MGParameters.__post_init__` -/

/-- Input accepted for `semicoarsening` and `linerelaxation`: a boolean or
an integer (single digit or multi-digit cycling). -/
inductive MultiInput where
  | boolIn (b : Bool)
  | numIn (n : ℤ)
deriving DecidableEq, Repr

/-- Decimal digits helper: `fuel` bounds the recursion depth (the value
itself always suffices). -/
def decimalDigitsAux : ℕ → ℕ → List ℕ
  | 0, _ => []
  | fuel + 1, n => if n = 0 then [] else decimalDigitsAux fuel (n / 10) ++ [n % 10]

/-- Decimal digits of a natural number, most significant first, as produced
by iterating over its string representation (0 gives [0]). -/
def decimalDigits (n : ℕ) : List ℕ :=
  if n = 0 then [0] else decimalDigitsAux n n

/-- Semicoarsening cycle list `rcycle`: True gives [1, 2, 3], an integer in
0..3 gives the singleton, anything else its decimal digits (False equals 0
in the membership test, giving [0]). -/
def rcycleOf (inp : MultiInput) : List ℕ :=
  match inp with
  | MultiInput.boolIn true => [1, 2, 3]
  | MultiInput.boolIn false => [0]
  | MultiInput.numIn n =>
    if 0 ≤ n ∧ n < 4 then [n.toNat] else decimalDigits n.natAbs

/-- Line-relaxation cycle list `lcycle`: True gives [4, 5, 6], an integer in
0..7 gives the singleton, anything else its decimal digits. -/
def lcycleOf (inp : MultiInput) : List ℕ :=
  match inp with
  | MultiInput.boolIn true => [4, 5, 6]
  | MultiInput.boolIn false => [0]
  | MultiInput.numIn n =>
    if 0 ≤ n ∧ n < 8 then [n.toNat] else decimalDigits n.natAbs

/-- Final iteration limits set by `MGParameters.__post_init__`: the pair is
`(ssl_maxit, maxit)`, where `ssl_maxit` is handed to the Krylov solver as
its `maxiter` and `maxit` is what the multigrid loop compares `it`
against. With an sslsolver, `ssl_maxit` becomes the user-supplied `maxit`;
if additionally a cycle is set (multigrid as preconditioner), `maxit` is
replaced by the maximum length of the two direction cycles. -/
def sslAndMgMaxit (sslsolver : Bool) (cycleSet : Bool) (userMaxit : ℕ)
    (rlist llist : List ℕ) : ℕ × ℕ :=
  if sslsolver then
    if cycleSet then (userMaxit, max rlist.length llist.length)
    else (userMaxit, userMaxit)
  else (0, userMaxit)

/-! ## Smoothing ldir degeneration and coarsening selection
(`emg3d/solver.py`, `smoothing` and the rdir selection in `multigrid`) -/

/-- Effective line-relaxation code computed at the head of `smoothing`:
axes with only two cells are dropped from the requested `ldir`, checking
the x-, y- and z-directions in that order. -/
def smoothingEffLdir (nCx nCy nCz ldir : ℕ) : ℕ :=
  let l1 :=
    if nCx = 2 then
      if ldir = 1 then 0
      else if ldir = 5 then 3
      else if ldir = 6 then 2
      else if ldir = 7 then 4
      else ldir
    else ldir
  let l2 :=
    if nCy = 2 then
      if l1 = 2 then 0
      else if l1 = 4 then 3
      else if l1 = 6 then 1
      else if l1 = 7 then 5
      else l1
    else l1
  let l3 :=
    if nCz = 2 then
      if l2 = 3 then 0
      else if l2 = 4 then 2
      else if l2 = 5 then 1
      else if l2 = 7 then 6
      else l2
    else l2
  l3

/-- Dispatch of `smoothing`: line relaxation along x runs for these codes. -/
def lineRelaxX (ldir : ℕ) : Bool := ldir == 1 || ldir == 5 || ldir == 6 || ldir == 7

/-- Dispatch of `smoothing`: line relaxation along y runs for these codes. -/
def lineRelaxY (ldir : ℕ) : Bool := ldir == 2 || ldir == 4 || ldir == 6 || ldir == 7

/-- Dispatch of `smoothing`: line relaxation along z runs for these codes. -/
def lineRelaxZ (ldir : ℕ) : Bool := ldir == 3 || ldir == 4 || ldir == 5 || ldir == 7

/-- Condition under which `multigrid` refuses to coarsen an axis: odd cell
count, fewer than 3 cells, or semicoarsening pinning that axis
(`var.rdir == axis + 1`). -/
def axisNoCoarsen (varRdir axis n : ℕ) : Prop :=
  n % 2 ≠ 0 ∨ n < 3 ∨ varRdir = axis + 1

instance (varRdir axis n : ℕ) : Decidable (axisNoCoarsen varRdir axis n) := by
  unfold axisNoCoarsen
  infer_instance

/-- Coarsening code chosen by `multigrid` from the three per-axis outcomes
(`xrdir`, `yrdir`, `zrdir` in the source). -/
def chooseRdir (varRdir nx ny nz : ℕ) : ℕ :=
  if axisNoCoarsen varRdir 0 nx then
    if axisNoCoarsen varRdir 1 ny then 6
    else if axisNoCoarsen varRdir 2 nz then 5
    else 1
  else if axisNoCoarsen varRdir 1 ny then
    if axisNoCoarsen varRdir 2 nz then 4
    else 2
  else if axisNoCoarsen varRdir 2 nz then 3
  else 0

/-- Codes for which `restriction` halves the x-axis (`rx = 2`). -/
def coarsensX (rdir : ℕ) : Bool := !(rdir == 1 || rdir == 5 || rdir == 6)

/-- Codes for which `restriction` halves the y-axis (`ry = 2`). -/
def coarsensY (rdir : ℕ) : Bool := !(rdir == 2 || rdir == 4 || rdir == 6)

/-- Codes for which `restriction` halves the z-axis (`rz = 2`). -/
def coarsensZ (rdir : ℕ) : Bool := !(rdir == 3 || rdir == 4 || rdir == 5)

/-- Cell counts of the coarse grid produced by `restriction` for a given
coarsening code (taking every second node along the halved axes). -/
def coarsenDims (rdir : ℕ) (d : ℕ × ℕ × ℕ) : ℕ × ℕ × ℕ :=
  (if coarsensX rdir then d.1 / 2 else d.1,
   if coarsensY rdir then d.2.1 / 2 else d.2.1,
   if coarsensZ rdir then d.2.2 / 2 else d.2.2)

/-- Cell counts of the grid visited at coarsening level `k` during one
multigrid cycle (the semicoarsening direction `varRdir` is fixed within a
cycle, so the grid at a level is determined by the level). -/
def dimsAtLevel (varRdir : ℕ) (d0 : ℕ × ℕ × ℕ) : ℕ → ℕ × ℕ × ℕ
  | 0 => d0
  | k + 1 =>
    let d := dimsAtLevel varRdir d0 k
    coarsenDims (chooseRdir varRdir d.1 d.2.1 d.2.2) d

/-- Per-axis maximum division-by-two level from `MGParameters.max_level`:
the number of times the count can be halved while even and above 2. -/
def divCount (n : ℕ) : ℕ :=
  if h : n % 2 = 0 ∧ 2 < n then divCount (n / 2) + 1 else 0
termination_by n
decreasing_by
  exact Nat.div_lt_self (by omega) (by omega)

/-- Per-axis maximum coarsening level after applying the optional user cap
(`clevel` parameter, automatic when negative). -/
def axisClevel (cap : Option ℕ) (n : ℕ) : ℕ :=
  match cap with
  | none => divCount n
  | some c => min c (divCount n)

/-- Entry `self.clevel[varRdir]` computed by `MGParameters.max_level`: the
maximum of the per-axis levels over the axes that the semicoarsening
direction leaves free. -/
def clevelArr (cap : Option ℕ) (d0 : ℕ × ℕ × ℕ) (varRdir : ℕ) : ℕ :=
  if varRdir = 1 then max (axisClevel cap d0.2.1) (axisClevel cap d0.2.2)
  else if varRdir = 2 then max (axisClevel cap d0.1) (axisClevel cap d0.2.2)
  else if varRdir = 3 then max (axisClevel cap d0.1) (axisClevel cap d0.2.1)
  else max (axisClevel cap d0.1)
    (max (axisClevel cap d0.2.1) (axisClevel cap d0.2.2))

/-- One coarsening step of a single free axis: halve while even and above
two, otherwise keep. -/
def axisStep (n : ℕ) : ℕ := if n % 2 = 0 ∧ 2 < n then n / 2 else n

/-- Reference dynamics of the three axes when every step is anomaly-free:
a pinned axis never changes, a free axis follows `axisStep`. -/
def niceDims (varRdir : ℕ) (d0 : ℕ × ℕ × ℕ) (k : ℕ) : ℕ × ℕ × ℕ :=
  (if varRdir = 1 then d0.1 else axisStep^[k] d0.1,
   if varRdir = 2 then d0.2.1 else axisStep^[k] d0.2.1,
   if varRdir = 3 then d0.2.2 else axisStep^[k] d0.2.2)

/-! ## Model restriction `restr` (`emg3d/solver.py`, inside `restriction`) -/

/-- Coarse model coefficient produced by `restr`: each coarse cell is the
sum of the 2, 4 or 8 fine cells that make it up, depending on which axes
the coarsening code halves (term order follows the source). -/
noncomputable def restrEta (rdir : ℕ) (p : ℕ → ℕ → ℕ → ℂ) : ℕ → ℕ → ℕ → ℂ :=
  fun i j k =>
    if rdir = 1 then
      p i (2 * j) (2 * k) + p i (2 * j + 1) (2 * k) +
        (p i (2 * j) (2 * k + 1) + p i (2 * j + 1) (2 * k + 1))
    else if rdir = 2 then
      p (2 * i) j (2 * k) + p (2 * i + 1) j (2 * k) +
        (p (2 * i) j (2 * k + 1) + p (2 * i + 1) j (2 * k + 1))
    else if rdir = 3 then
      p (2 * i) (2 * j) k + p (2 * i + 1) (2 * j) k +
        (p (2 * i) (2 * j + 1) k + p (2 * i + 1) (2 * j + 1) k)
    else if rdir = 4 then
      p (2 * i) j k + p (2 * i + 1) j k
    else if rdir = 5 then
      p i (2 * j) k + p i (2 * j + 1) k
    else if rdir = 6 then
      p i j (2 * k) + p i j (2 * k + 1)
    else
      p (2 * i) (2 * j) (2 * k) + p (2 * i + 1) (2 * j) (2 * k) +
        (p (2 * i) (2 * j) (2 * k + 1) + p (2 * i + 1) (2 * j) (2 * k + 1)) +
        (p (2 * i) (2 * j + 1) (2 * k) + p (2 * i + 1) (2 * j + 1) (2 * k)) +
        (p (2 * i) (2 * j + 1) (2 * k + 1) + p (2 * i + 1) (2 * j + 1) (2 * k + 1))

/-- Total of a model-coefficient array over a grid of the given cell
counts. -/
noncomputable def totalSum (nx ny nz : ℕ) (p : ℕ → ℕ → ℕ → ℂ) : ℂ :=
  ∑ i ∈ Finset.range nx, ∑ j ∈ Finset.range ny, ∑ k ∈ Finset.range nz, p i j k

/-! ## PEC boundary (`emg3d/solver.py` together with the field container)

The `ensure_pec` routine and the numba kernels live outside the translated
sources; they are modelled from the specification below. The calls to
`ensure_pec` at the end of `restriction` and `prolongation` are in
`solver.py` itself. -/

/-- Edge field on a grid with the three component arrays, indexed as in the
source: `fx i j k` with `i` a cell index along x and `j`, `k` node indices
along y and z, and cyclically for the others. -/
structure EdgeField3 where
  fx : ℕ → ℕ → ℕ → ℂ
  fy : ℕ → ℕ → ℕ → ℂ
  fz : ℕ → ℕ → ℕ → ℂ

/-- PEC invariant on a grid with cell counts `(nx, ny, nz)`: all tangential
edge components on the six outer faces are zero. -/
def pecField (nx ny nz : ℕ) (e : EdgeField3) : Prop :=
  (∀ i j k, j = 0 ∨ j = ny ∨ k = 0 ∨ k = nz → e.fx i j k = 0) ∧
  (∀ i j k, i = 0 ∨ i = nx ∨ k = 0 ∨ k = nz → e.fy i j k = 0) ∧
  (∀ i j k, i = 0 ∨ i = nx ∨ j = 0 ∨ j = ny → e.fz i j k = 0)

/-- Modelled from the spec: the `ensure_pec` routine of the field container
(outside the translated sources) zeroes all tangential edges on the six
outer faces. -/
def ensurePec (nx ny nz : ℕ) (e : EdgeField3) : EdgeField3 where
  fx := fun i j k =>
    if j = 0 ∨ j = ny ∨ k = 0 ∨ k = nz then 0 else e.fx i j k
  fy := fun i j k =>
    if i = 0 ∨ i = nx ∨ k = 0 ∨ k = nz then 0 else e.fy i j k
  fz := fun i j k =>
    if i = 0 ∨ i = nx ∨ j = 0 ∨ j = ny then 0 else e.fz i j k

/-- Modelled from the spec: the Gauss-Seidel smoothers (numba kernels
`gauss_seidel*`, outside the translated sources) never update tangential
components on the outermost faces; `upd` stands for whatever values the
sweeps write to the interior edges. -/
def smoothingModel (nx ny nz : ℕ) (upd e : EdgeField3) : EdgeField3 where
  fx := fun i j k =>
    if j = 0 ∨ j = ny ∨ k = 0 ∨ k = nz then e.fx i j k else upd.fx i j k
  fy := fun i j k =>
    if i = 0 ∨ i = nx ∨ k = 0 ∨ k = nz then e.fy i j k else upd.fy i j k
  fz := fun i j k =>
    if i = 0 ∨ i = nx ∨ j = 0 ∨ j = ny then e.fz i j k else upd.fz i j k

/-- Modelled from the spec: the operator apply (numba kernel `amat_x`,
outside the translated sources) sets tangential components on outer faces
to zero; `interior` stands for the interior stencil values. -/
def amatXModel (nx ny nz : ℕ) (interior : EdgeField3) : EdgeField3 where
  fx := fun i j k =>
    if j = 0 ∨ j = ny ∨ k = 0 ∨ k = nz then 0 else interior.fx i j k
  fy := fun i j k =>
    if i = 0 ∨ i = nx ∨ k = 0 ∨ k = nz then 0 else interior.fy i j k
  fz := fun i j k =>
    if i = 0 ∨ i = nx ∨ j = 0 ∨ j = ny then 0 else interior.fz i j k

/-- Coarse source field produced by `restriction`: the jitted restrict
writes `raw` (modelled as a parameter), after which `csfield.ensure_pec`
runs (this call is in `solver.py`). -/
def restrictionSourceField (cnx cny cnz : ℕ) (raw : EdgeField3) : EdgeField3 :=
  ensurePec cnx cny cnz raw

/-- Fine field produced by `prolongation`: the interpolated coarse values
are added in place (the updated field is `efieldPlus`), after which
`efield.ensure_pec` runs (this call is in `solver.py`). -/
def prolongationResult (nx ny nz : ℕ) (efieldPlus : EdgeField3) : EdgeField3 :=
  ensurePec nx ny nz efieldPlus

/-! ## Claim theorems (first batch) -/

/-- C10: for each of the six registered property mappings, backward is the
mathematical inverse of forward on strictly positive conductivities. -/
theorem maps_backward_forward_id (sigma : ℝ) (hpos : 0 < sigma) :
    mapConductivityBackward (mapConductivityForward sigma) = sigma ∧
    mapLgConductivityBackward (mapLgConductivityForward sigma) = sigma ∧
    mapLnConductivityBackward (mapLnConductivityForward sigma) = sigma ∧
    mapResistivityBackward (mapResistivityForward sigma) = sigma ∧
    mapLgResistivityBackward (mapLgResistivityForward sigma) = sigma ∧
    mapLnResistivityBackward (mapLnResistivityForward sigma) = sigma := by
  have hne : sigma ≠ 0 := ne_of_gt hpos
  have hinvpos : 0 < 1.0 / sigma := by
    have : (1.0 : ℝ) / sigma = sigma⁻¹ := by norm_num
    rw [this]
    exact inv_pos.mpr hpos
  refine ⟨rfl, ?_, ?_, ?_, ?_, ?_⟩
  · -- 10 ^ logb 10 sigma = sigma
    simpa [mapLgConductivityBackward, mapLgConductivityForward] using
      Real.rpow_logb (by norm_num) (by norm_num) hpos
  · simpa [mapLnConductivityBackward, mapLnConductivityForward] using
      Real.exp_log hpos
  · -- 1 / (1 / sigma) = sigma
    field_simp [mapResistivityBackward, mapResistivityForward]
  · -- 10 ^ (- logb 10 (1/sigma)) = sigma
    have h1 : -(Real.logb 10 (1.0 / sigma)) = Real.logb 10 sigma := by
      have : (1.0 : ℝ) / sigma = sigma⁻¹ := by norm_num
      rw [this, Real.logb_inv]
      ring
    simp only [mapLgResistivityBackward, mapLgResistivityForward, h1]
    exact Real.rpow_logb (by norm_num) (by norm_num) hpos
  · have h1 : -(Real.log (1.0 / sigma)) = Real.log sigma := by
      have : (1.0 : ℝ) / sigma = sigma⁻¹ := by norm_num
      rw [this, Real.log_inv]
      ring
    simp only [mapLnResistivityBackward, mapLnResistivityForward, h1]
    exact Real.exp_log hpos

/-- Witness for C10 at sigma = 2. -/
theorem maps_backward_forward_id_witness :
    (0 : ℝ) < 2 ∧ mapConductivityBackward (mapConductivityForward 2) = 2 :=
  ⟨by norm_num, (maps_backward_forward_id 2 (by norm_num)).1⟩

/-- C9: constructing a Field with frequency 0 raises a ValueError; for f > 0
the dtype is complex and the Laplace parameter is s = -2i*pi*f; for f < 0 the
dtype is real (float64) and s = f. -/
theorem field_frequency_dtype_sval (f : ℚ) :
    (f = 0 →
      fieldDtypeOfFrequency f = Except.error FieldInitError.zeroFrequencyValueError) ∧
    (0 < f →
      fieldDtypeOfFrequency f = Except.ok FieldDtype.complex128 ∧
      fieldSval f = -2 * Real.pi * (f : ℂ) * Complex.I) ∧
    (f < 0 →
      fieldDtypeOfFrequency f = Except.ok FieldDtype.float64 ∧
      fieldSval f = (f : ℂ)) := by
  refine ⟨?_, ?_, ?_⟩
  · intro h0
    simp [fieldDtypeOfFrequency, h0]
  · intro hpos
    constructor
    · simp [fieldDtypeOfFrequency, hpos]
    · have hnotneg : ¬ f < 0 := by exact not_lt.mpr (le_of_lt hpos)
      simp [fieldSval, hnotneg]
  · intro hneg
    constructor
    · have hnotpos : ¬ f > 0 := by exact not_lt.mpr (le_of_lt hneg)
      simp [fieldDtypeOfFrequency, hnotpos, hneg]
    · simp [fieldSval, hneg]

/-- Witness for C9 at f = 1 (frequency domain) and f = -1 (Laplace domain). -/
theorem field_frequency_dtype_sval_witness :
    (fieldDtypeOfFrequency 1 = Except.ok FieldDtype.complex128 ∧
      fieldSval 1 = -2 * Real.pi * ((1 : ℚ) : ℂ) * Complex.I) ∧
    (fieldDtypeOfFrequency (-1) = Except.ok FieldDtype.float64 ∧
      fieldSval (-1) = ((-1 : ℚ) : ℂ)) ∧
    fieldDtypeOfFrequency 0 = Except.error FieldInitError.zeroFrequencyValueError :=
  ⟨(field_frequency_dtype_sval 1).2.1 (by norm_num),
   (field_frequency_dtype_sval (-1)).2.2 (by norm_num),
   (field_frequency_dtype_sval 0).1 rfl⟩

/-- C5: the coarse-grid visit budget cycmax is 1 for the V-cycle and 2 for
the W-cycle on every non-coarsest level; for the F-cycle it is 2 on the
initial call and on descent (`new_cycmax = cycmax - cyc` with `cyc = 0`) and
1 on re-ascent (`cyc = 1`); on the coarsest level it is always 1. -/
theorem multigrid_cycmax_policy (cycle : MGCycle) (clevelRdir level newCycmax : ℕ) :
    (getCycmax cycle (paramsCycmax cycle) clevelRdir clevelRdir newCycmax = 1) ∧
    (level ≠ clevelRdir →
      getCycmax MGCycle.V (paramsCycmax MGCycle.V) clevelRdir level newCycmax = 1) ∧
    (level ≠ clevelRdir →
      getCycmax MGCycle.W (paramsCycmax MGCycle.W) clevelRdir level newCycmax = 2) ∧
    (level ≠ clevelRdir →
      getCycmax MGCycle.F (paramsCycmax MGCycle.F) clevelRdir level 0 = 2) ∧
    (level ≠ clevelRdir →
      getCycmax MGCycle.F (paramsCycmax MGCycle.F) clevelRdir level
        (recursionNewCycmax 2 0) = 2) ∧
    (level ≠ clevelRdir →
      getCycmax MGCycle.F (paramsCycmax MGCycle.F) clevelRdir level
        (recursionNewCycmax 2 1) = 1) := by
  refine ⟨?_, ?_, ?_, ?_, ?_, ?_⟩
  · simp [getCycmax]
  · intro h
    simp [getCycmax, h, paramsCycmax]
  · intro h
    simp [getCycmax, h, paramsCycmax]
  · intro h
    simp [getCycmax, h, paramsCycmax]
  · intro h
    simp [getCycmax, h, paramsCycmax, recursionNewCycmax]
  · intro h
    simp [getCycmax, h, paramsCycmax, recursionNewCycmax]

/-- Witness for C5 at clevel[rdir] = 1, level = 0, new_cycmax = 5. -/
theorem multigrid_cycmax_policy_witness :
    (0 : ℕ) ≠ 1 ∧
    getCycmax MGCycle.F (paramsCycmax MGCycle.F) 1 0 (recursionNewCycmax 2 1) = 1 :=
  ⟨by decide, (multigrid_cycmax_policy MGCycle.F 1 0 5).2.2.2.2.2 (by decide)⟩

/-- C4: the solver conjugates a caller-supplied initial field on entry and
the final field again on exit, so the returned field is the conjugate of the
internally computed solution, and on the early-exit path (internal
computation is the identity) the caller receives the field unchanged. -/
theorem solver_conjugation_roundtrip (internal : List ℂ → List ℂ) (efield : List ℂ) :
    solverFieldPipeline internal efield = conjField (internal (conjField efield)) ∧
    solverFieldPipeline id efield = efield := by
  constructor
  · rfl
  · show conjField (conjField efield) = efield
    unfold conjField
    rw [List.map_map]
    have : (starRingEnd ℂ) ∘ (starRingEnd ℂ) = id := by
      funext z
      simp
    rw [this, List.map_id]

/-! ## Claim theorems: cycle-loop termination, early exit, maxit policy -/

/-- The termination check returns none exactly when none of the four exit
conditions holds. -/
theorem mgCheck_eq_none_iff (tol l2refe l2init : ℚ) (maxit : ℕ) (r : ℕ → ℚ)
    (j : ℕ) :
    mgCheck tol l2refe l2init maxit r j = none ↔
      ¬ (r j < tol * l2refe) ∧ ¬ (10 * l2init < r j) ∧
      ¬ (2 < j ∧ r (j - 1) ≤ r j) ∧ j ≠ maxit := by
  unfold mgCheck
  split_ifs with h1 h2 h3 h4 <;>
    simp_all

/-- The termination check fires with the first condition that holds, in
source order. -/
theorem mgCheck_eq_some_cases (tol l2refe l2init : ℚ) (maxit : ℕ) (r : ℕ → ℚ)
    (it : ℕ) (e : MGExit)
    (h : mgCheck tol l2refe l2init maxit r it = some e) :
    (e = MGExit.converged ∧ r it < tol * l2refe) ∨
    (e = MGExit.diverged ∧ ¬ (r it < tol * l2refe) ∧ 10 * l2init < r it) ∨
    (e = MGExit.stagnated ∧ ¬ (r it < tol * l2refe) ∧ ¬ (10 * l2init < r it) ∧
      2 < it ∧ r (it - 1) ≤ r it) ∨
    (e = MGExit.maxIterReached ∧ ¬ (r it < tol * l2refe) ∧
      ¬ (10 * l2init < r it) ∧ ¬ (2 < it ∧ r (it - 1) ≤ r it) ∧ it = maxit) := by
  unfold mgCheck at h
  split_ifs at h with h1 h2 h3 h4 <;>
    simp_all

/-- The cycle loop, given enough fuel, stops at the first iteration at
which the termination check fires, and that iteration is at most maxit. -/
theorem mgLoop_first_fire (tol l2refe l2init : ℚ) (maxit : ℕ) (r : ℕ → ℚ) :
    ∀ fuel it, it ≤ maxit → maxit + 1 ≤ it + fuel →
    ∃ itE : ℕ × MGExit,
      mgLoop tol l2refe l2init maxit r fuel it = some itE ∧
      it ≤ itE.1 ∧ itE.1 ≤ maxit ∧
      (∀ j, it ≤ j → j < itE.1 →
        mgCheck tol l2refe l2init maxit r j = none) ∧
      mgCheck tol l2refe l2init maxit r itE.1 = some itE.2 := by
  intro fuel
  induction fuel with
  | zero =>
    intro it hit hfuel
    omega
  | succ n ih =>
    intro it hit hfuel
    cases hchk : mgCheck tol l2refe l2init maxit r it with
    | some e =>
      refine ⟨(it, e), ?_, le_refl it, hit, ?_, hchk⟩
      · simp [mgLoop, hchk]
      · intro j hj1 hj2
        omega
    | none =>
      have hne : it ≠ maxit :=
        ((mgCheck_eq_none_iff tol l2refe l2init maxit r it).mp hchk).2.2.2
      have hit1 : it + 1 ≤ maxit := by omega
      obtain ⟨itE, hrun, hge, hle, hnone, hsome⟩ :=
        ih (it + 1) hit1 (by omega)
      refine ⟨itE, ?_, by omega, hle, ?_, hsome⟩
      · simp [mgLoop, hchk, hrun]
      · intro j hj1 hj2
        rcases Nat.eq_or_lt_of_le hj1 with hj | hj
        · exact hj ▸ hchk
        · exact hnone j hj hj2

/-- C1 (amended): a standalone multigrid solve terminates exactly at the
first full cycle after which, checked in source order, one of the following
holds: the residual norm is strictly below tol times the reference norm
(converged); it strictly exceeds ten times the initial norm (diverged); it
is at least the previous norm while more than two iterations have been done
(stagnated); or the iteration count equals maxit. -/
theorem multigrid_standalone_termination (tol l2refe l2init : ℚ) (maxit : ℕ)
    (r : ℕ → ℚ) (hm : 1 ≤ maxit) :
    ∃ it e, multigridStandalone tol l2refe l2init maxit r = some (it, e) ∧
      1 ≤ it ∧ it ≤ maxit ∧
      (∀ j, 1 ≤ j → j < it →
        ¬ (r j < tol * l2refe) ∧ ¬ (10 * l2init < r j) ∧
        ¬ (2 < j ∧ r (j - 1) ≤ r j) ∧ j ≠ maxit) ∧
      ((e = MGExit.converged ∧ r it < tol * l2refe) ∨
       (e = MGExit.diverged ∧ ¬ (r it < tol * l2refe) ∧ 10 * l2init < r it) ∨
       (e = MGExit.stagnated ∧ ¬ (r it < tol * l2refe) ∧
         ¬ (10 * l2init < r it) ∧ 2 < it ∧ r (it - 1) ≤ r it) ∨
       (e = MGExit.maxIterReached ∧ ¬ (r it < tol * l2refe) ∧
         ¬ (10 * l2init < r it) ∧ ¬ (2 < it ∧ r (it - 1) ≤ r it) ∧
         it = maxit)) := by
  obtain ⟨itE, hrun, hge, hle, hnone, hsome⟩ :=
    mgLoop_first_fire tol l2refe l2init maxit r maxit 1 hm (by omega)
  refine ⟨itE.1, itE.2, ?_, hge, hle, ?_, ?_⟩
  · simpa [multigridStandalone] using hrun
  · intro j hj1 hj2
    exact (mgCheck_eq_none_iff tol l2refe l2init maxit r j).mp
      (hnone j hj1 hj2)
  · exact mgCheck_eq_some_cases tol l2refe l2init maxit r itE.1 itE.2 hsome

/-- Witness for C1 at tol = 1, norms 1, maxit = 1 and an immediately
converging residual sequence. -/
theorem multigrid_standalone_termination_witness :
    ∃ it e, multigridStandalone 1 1 1 1 (fun _ => 0) = some (it, e) ∧
      1 ≤ it ∧ it ≤ 1 ∧
      (∀ j, 1 ≤ j → j < it →
        ¬ ((fun _ => (0 : ℚ)) j < 1 * 1) ∧
        ¬ ((10 : ℚ) * 1 < (fun _ => (0 : ℚ)) j) ∧
        ¬ (2 < j ∧ (fun _ => (0 : ℚ)) (j - 1) ≤ (fun _ => (0 : ℚ)) j) ∧
        j ≠ 1) ∧
      ((e = MGExit.converged ∧ (fun _ => (0 : ℚ)) it < 1 * 1) ∨
       (e = MGExit.diverged ∧ ¬ ((fun _ => (0 : ℚ)) it < 1 * 1) ∧
         (10 : ℚ) * 1 < (fun _ => (0 : ℚ)) it) ∨
       (e = MGExit.stagnated ∧ ¬ ((fun _ => (0 : ℚ)) it < 1 * 1) ∧
         ¬ ((10 : ℚ) * 1 < (fun _ => (0 : ℚ)) it) ∧ 2 < it ∧
         (fun _ => (0 : ℚ)) (it - 1) ≤ (fun _ => (0 : ℚ)) it) ∨
       (e = MGExit.maxIterReached ∧ ¬ ((fun _ => (0 : ℚ)) it < 1 * 1) ∧
         ¬ ((10 : ℚ) * 1 < (fun _ => (0 : ℚ)) it) ∧
         ¬ (2 < it ∧ (fun _ => (0 : ℚ)) (it - 1) ≤ (fun _ => (0 : ℚ)) it) ∧
         it = 1)) :=
  multigrid_standalone_termination 1 1 1 1 (fun _ => 0) (by norm_num)

/-- Residual-norm sequence that touches the tolerance exactly after the
first cycle, rises after the second, and converges after the third. -/
def cexWallR : ℕ → ℚ :=
  fun k => if k = 0 then 1 else if k = 1 then 1 else if k = 2 then 2 else 1 / 2

/-- C1 counterexample to the claim as stated: with tol = 1 and both
reference and initial norms 1, the residual norm after the first cycle
already satisfies the claim's non-strict convergence condition, yet the
loop does not stop there: it runs to cycle 3 (the code uses a strict
comparison). -/
theorem multigrid_termination_claim_counterexample :
    cexWallR 1 ≤ 1 * 1 ∧
    multigridStandalone 1 1 1 5 cexWallR = some (3, MGExit.converged) ∧
    (3 : ℕ) ≠ 1 := by
  refine ⟨by norm_num [cexWallR], ?_, by decide⟩
  norm_num [multigridStandalone, mgLoop, mgCheck, cexWallR]

/-- C3 (amended): when the caller-supplied initial field has residual norm
strictly below tol times the source-field norm, the solver runs neither
smoothing nor any multigrid cycle: the main solver is skipped and the inner
iteration count is zero. -/
theorem solver_early_exit_strict (tol bnorm rnorm l2init : ℚ) (maxit : ℕ)
    (r : ℕ → ℚ) (h : rnorm < tol * bnorm) :
    solverWithInitialEfield tol bnorm rnorm l2init maxit r =
      { ranSolver := false, mgIterations := 0 } := by
  simp [solverWithInitialEfield, h]

/-- Witness for C3 at rnorm = 0, tol = bnorm = 1. -/
theorem solver_early_exit_strict_witness :
    (0 : ℚ) < 1 * 1 ∧
    solverWithInitialEfield 1 1 0 1 1 (fun _ => 0) =
      { ranSolver := false, mgIterations := 0 } :=
  ⟨by norm_num, solver_early_exit_strict 1 1 0 1 1 (fun _ => 0) (by norm_num)⟩

/-- C3 counterexample to the claim as stated: a supplied field whose
residual norm equals tol times the source norm satisfies the claim's
non-strict entry check, yet the solver runs (one multigrid cycle here)
because the code requires a strict inequality. -/
theorem solver_early_exit_claim_counterexample :
    (1 : ℚ) ≤ 1 * 1 ∧
    solverWithInitialEfield 1 1 1 1 1 (fun _ => 0) =
      { ranSolver := true, mgIterations := 1 } := by
  refine ⟨by norm_num, ?_⟩
  norm_num [solverWithInitialEfield, multigridStandalone, mgLoop, mgCheck]

/-- C8 (amended): with a Krylov sslsolver enabled together with a multigrid
cycle, the Krylov solver keeps the user-supplied maxit as its outer
iteration limit while the multigrid preconditioner's own maxit becomes the
maximum length of the two direction cycles; without multigrid
preconditioning (or without sslsolver) the user-supplied maxit applies to
the solver that runs. The concrete conjunct evaluates the policy for
semicoarsening 1213 (cycle length 4). -/
theorem mgparameters_maxit_policy (sc lr : MultiInput) (userMaxit : ℕ) :
    (sslAndMgMaxit true true userMaxit (rcycleOf sc) (lcycleOf lr) =
      (userMaxit, max (rcycleOf sc).length (lcycleOf lr).length)) ∧
    (sslAndMgMaxit true false userMaxit (rcycleOf sc) (lcycleOf lr) =
      (userMaxit, userMaxit)) ∧
    (sslAndMgMaxit false true userMaxit (rcycleOf sc) (lcycleOf lr) =
      (0, userMaxit)) ∧
    (sslAndMgMaxit false false userMaxit (rcycleOf sc) (lcycleOf lr) =
      (0, userMaxit)) ∧
    sslAndMgMaxit true true 50 (rcycleOf (MultiInput.numIn 1213))
      (lcycleOf (MultiInput.boolIn false)) = (50, 4) := by
  exact ⟨rfl, rfl, rfl, rfl, by decide⟩

/-- An axis that can no longer be halved is left unchanged by `axisStep`. -/
theorem axisStep_of_not {n : ℕ} (h : ¬ (n % 2 = 0 ∧ 2 < n)) : axisStep n = n := by
  simp [axisStep, h]

/-- Iterating `axisStep` on an axis that cannot be halved does nothing. -/
theorem iterate_axisStep_of_not {n : ℕ} (h : ¬ (n % 2 = 0 ∧ 2 < n)) :
    ∀ k, axisStep^[k] n = n := by
  intro k
  induction k with
  | zero => rfl
  | succ m ih =>
    rw [Function.iterate_succ_apply, axisStep_of_not h]
    exact ih

/-- After `k` halvings a free axis can still be halved exactly when `k` is
below its division count. -/
theorem coarsenable_iterate_iff :
    ∀ (k n : ℕ),
      (axisStep^[k] n % 2 = 0 ∧ 2 < axisStep^[k] n) ↔ k < divCount n := by
  intro k
  induction k with
  | zero =>
    intro n
    rw [divCount]
    split
    · next h => simp [h]
    · next h => simp [h]
  | succ m ih =>
    intro n
    by_cases hc : n % 2 = 0 ∧ 2 < n
    · rw [Function.iterate_succ_apply]
      have hstep : axisStep n = n / 2 := by simp [axisStep, hc]
      have hdn : divCount n = divCount (n / 2) + 1 := by
        rw [divCount]
        simp [hc]
      rw [hstep, ih (n / 2), hdn]
      omega
    · rw [iterate_axisStep_of_not hc]
      have h0 : divCount n = 0 := by
        rw [divCount]
        simp [hc]
      rw [h0]
      simp [hc]

/-- On a free axis (not pinned by semicoarsening) the no-coarsen test is
exactly the failure of the halving condition. -/
theorem axisNoCoarsen_free_iff {v a : ℕ} (hva : v ≠ a + 1) (n : ℕ) :
    axisNoCoarsen v a n ↔ ¬ (n % 2 = 0 ∧ 2 < n) := by
  unfold axisNoCoarsen
  constructor
  · intro h
    rcases h with h | h | h
    · omega
    · omega
    · exact absurd h hva
  · intro h
    omega

/-- Whenever at least one axis is still free to coarsen, the chosen code
only halves axes that passed the per-axis test. -/
theorem chooseRdir_good (v nx ny nz : ℕ)
    (h : ¬ (axisNoCoarsen v 0 nx ∧ axisNoCoarsen v 1 ny ∧ axisNoCoarsen v 2 nz)) :
    (coarsensX (chooseRdir v nx ny nz) = true → ¬ axisNoCoarsen v 0 nx) ∧
    (coarsensY (chooseRdir v nx ny nz) = true → ¬ axisNoCoarsen v 1 ny) ∧
    (coarsensZ (chooseRdir v nx ny nz) = true → ¬ axisNoCoarsen v 2 nz) := by
  by_cases hx : axisNoCoarsen v 0 nx <;>
    by_cases hy : axisNoCoarsen v 1 ny <;>
      by_cases hz : axisNoCoarsen v 2 nz <;>
        simp_all [chooseRdir, coarsensX, coarsensY, coarsensZ]

/-- Anomaly-free step: when not all three axes are blocked, restriction
after selection halves exactly the axes that passed the per-axis test. -/
theorem coarsen_step_eq (v nx ny nz : ℕ)
    (h : ¬ (axisNoCoarsen v 0 nx ∧ axisNoCoarsen v 1 ny ∧ axisNoCoarsen v 2 nz)) :
    coarsenDims (chooseRdir v nx ny nz) (nx, ny, nz) =
      (if axisNoCoarsen v 0 nx then nx else nx / 2,
       if axisNoCoarsen v 1 ny then ny else ny / 2,
       if axisNoCoarsen v 2 nz then nz else nz / 2) := by
  by_cases hx : axisNoCoarsen v 0 nx <;>
    by_cases hy : axisNoCoarsen v 1 ny <;>
      by_cases hz : axisNoCoarsen v 2 nz <;>
        simp_all [chooseRdir, coarsenDims, coarsensX, coarsensY, coarsensZ]

/-- One anomaly-free step of a single axis agrees with `axisStep` for a
free axis and keeps a pinned axis. -/
theorem nice_axis_step (v a n k : ℕ) :
    (if axisNoCoarsen v a (if v = a + 1 then n else axisStep^[k] n) then
       (if v = a + 1 then n else axisStep^[k] n)
     else (if v = a + 1 then n else axisStep^[k] n) / 2) =
      (if v = a + 1 then n else axisStep^[k + 1] n) := by
  by_cases hva : v = a + 1
  · subst hva
    have hblk : axisNoCoarsen (a + 1) a n := Or.inr (Or.inr rfl)
    simp [hblk]
  · simp only [hva, if_false]
    by_cases hc : axisStep^[k] n % 2 = 0 ∧ 2 < axisStep^[k] n
    · have hnb : ¬ axisNoCoarsen v a (axisStep^[k] n) := by
        rw [axisNoCoarsen_free_iff hva]
        exact not_not_intro hc
      rw [if_neg hnb, Function.iterate_succ_apply']
      simp [axisStep, hc]
    · have hb : axisNoCoarsen v a (axisStep^[k] n) := by
        rw [axisNoCoarsen_free_iff hva]
        exact hc
      rw [if_pos hb, Function.iterate_succ_apply', axisStep_of_not hc]

/-- The per-axis coarsening level is bounded by the raw division count. -/
theorem axisClevel_le (cap : Option ℕ) (n : ℕ) : axisClevel cap n ≤ divCount n := by
  cases cap with
  | none => exact le_refl _
  | some c => exact min_le_right _ _

/-- A free axis whose level bound has not been reached is not blocked at
the grid it has been coarsened to. -/
theorem free_axis_not_blocked {v a k n : ℕ} (hva : v ≠ a + 1)
    (hk : k < divCount n) : ¬ axisNoCoarsen v a (axisStep^[k] n) := by
  rw [axisNoCoarsen_free_iff hva]
  exact not_not_intro ((coarsenable_iterate_iff k n).mpr hk)

/-- Below the coarsest level, not all three axes can be blocked under the
reference dynamics. -/
theorem notAll_blocked (v : ℕ) (cap : Option ℕ) (d0 : ℕ × ℕ × ℕ) (k : ℕ)
    (hv : v ≤ 3) (hk : k < clevelArr cap d0 v) :
    ¬ (axisNoCoarsen v 0 (niceDims v d0 k).1 ∧
       axisNoCoarsen v 1 (niceDims v d0 k).2.1 ∧
       axisNoCoarsen v 2 (niceDims v d0 k).2.2) := by
  have hx := axisClevel_le cap d0.1
  have hy := axisClevel_le cap d0.2.1
  have hz := axisClevel_le cap d0.2.2
  have hk2 : (v ≠ 1 ∧ k < divCount d0.1) ∨ (v ≠ 2 ∧ k < divCount d0.2.1) ∨
      (v ≠ 3 ∧ k < divCount d0.2.2) := by
    unfold clevelArr at hk
    by_cases h1 : v = 1
    · rw [if_pos h1] at hk
      rcases lt_max_iff.mp hk with h | h
      · exact Or.inr (Or.inl ⟨by omega, by omega⟩)
      · exact Or.inr (Or.inr ⟨by omega, by omega⟩)
    · rw [if_neg h1] at hk
      by_cases h2 : v = 2
      · rw [if_pos h2] at hk
        rcases lt_max_iff.mp hk with h | h
        · exact Or.inl ⟨by omega, by omega⟩
        · exact Or.inr (Or.inr ⟨by omega, by omega⟩)
      · rw [if_neg h2] at hk
        by_cases h3 : v = 3
        · rw [if_pos h3] at hk
          rcases lt_max_iff.mp hk with h | h
          · exact Or.inl ⟨by omega, by omega⟩
          · exact Or.inr (Or.inl ⟨by omega, by omega⟩)
        · rw [if_neg h3] at hk
          rcases lt_max_iff.mp hk with h | h
          · exact Or.inl ⟨h1, by omega⟩
          · rcases lt_max_iff.mp h with h4 | h4
            · exact Or.inr (Or.inl ⟨h2, by omega⟩)
            · exact Or.inr (Or.inr ⟨h3, by omega⟩)
  rcases hk2 with ⟨hvx, hdx⟩ | ⟨hvy, hdy⟩ | ⟨hvz, hdz⟩
  · intro hall
    apply free_axis_not_blocked (v := v) (a := 0) (by omega) hdx
    have hcomp : (niceDims v d0 k).1 = axisStep^[k] d0.1 := by
      simp [niceDims, hvx]
    rw [hcomp] at hall
    exact hall.1
  · intro hall
    apply free_axis_not_blocked (v := v) (a := 1) (by omega) hdy
    have hcomp : (niceDims v d0 k).2.1 = axisStep^[k] d0.2.1 := by
      simp [niceDims, hvy]
    rw [hcomp] at hall
    exact hall.2.1
  · intro hall
    apply free_axis_not_blocked (v := v) (a := 2) (by omega) hdz
    have hcomp : (niceDims v d0 k).2.2 = axisStep^[k] d0.2.2 := by
      simp [niceDims, hvz]
    rw [hcomp] at hall
    exact hall.2.2

/-- Up to the coarsest level, the grids visited by the semicoarsening
recursion follow the reference per-axis dynamics. -/
theorem dims_nice (v : ℕ) (cap : Option ℕ) (d0 : ℕ × ℕ × ℕ) (hv : v ≤ 3) :
    ∀ k, k ≤ clevelArr cap d0 v → dimsAtLevel v d0 k = niceDims v d0 k := by
  intro k
  induction k with
  | zero =>
    intro _
    simp [dimsAtLevel, niceDims]
  | succ m ih =>
    intro hm1
    have hmlt : m < clevelArr cap d0 v := by omega
    have hmle : m ≤ clevelArr cap d0 v := by omega
    have hnice := ih hmle
    have hna := notAll_blocked v cap d0 m hv hmlt
    rw [← hnice] at hna
    have hstep := coarsen_step_eq v (dimsAtLevel v d0 m).1
      (dimsAtLevel v d0 m).2.1 (dimsAtLevel v d0 m).2.2 hna
    show coarsenDims (chooseRdir v (dimsAtLevel v d0 m).1
        (dimsAtLevel v d0 m).2.1 (dimsAtLevel v d0 m).2.2)
        (dimsAtLevel v d0 m) = niceDims v d0 (m + 1)
    have hdm : (dimsAtLevel v d0 m) = ((dimsAtLevel v d0 m).1,
        (dimsAtLevel v d0 m).2.1, (dimsAtLevel v d0 m).2.2) := rfl
    rw [hdm, hstep, hnice]
    unfold niceDims
    refine Prod.ext ?_ (Prod.ext ?_ ?_)
    · exact nice_axis_step v 0 d0.1 m
    · exact nice_axis_step v 1 d0.2.1 m
    · exact nice_axis_step v 2 d0.2.2 m

/-- C6: line relaxation is never performed along an axis with exactly two
cells (the requested `ldir` degenerates by dropping that axis, for example
ldir 7 with two cells along z becomes 6), and on every level above the
coarsest the cycle controller only selects coarsening axes whose cell count
is even and at least 3. -/
theorem smoothing_linerelax_and_coarsening_guards :
    (∀ nCy nCz ldir, ldir ≤ 7 →
      lineRelaxX (smoothingEffLdir 2 nCy nCz ldir) = false) ∧
    (∀ nCx nCz ldir, ldir ≤ 7 →
      lineRelaxY (smoothingEffLdir nCx 2 nCz ldir) = false) ∧
    (∀ nCx nCy ldir, ldir ≤ 7 →
      lineRelaxZ (smoothingEffLdir nCx nCy 2 ldir) = false) ∧
    smoothingEffLdir 4 4 2 7 = 6 ∧
    (∀ v cap d0 k, v ≤ 3 → k < clevelArr cap d0 v →
      (coarsensX (chooseRdir v (dimsAtLevel v d0 k).1
          (dimsAtLevel v d0 k).2.1 (dimsAtLevel v d0 k).2.2) = true →
        (dimsAtLevel v d0 k).1 % 2 = 0 ∧ 3 ≤ (dimsAtLevel v d0 k).1) ∧
      (coarsensY (chooseRdir v (dimsAtLevel v d0 k).1
          (dimsAtLevel v d0 k).2.1 (dimsAtLevel v d0 k).2.2) = true →
        (dimsAtLevel v d0 k).2.1 % 2 = 0 ∧ 3 ≤ (dimsAtLevel v d0 k).2.1) ∧
      (coarsensZ (chooseRdir v (dimsAtLevel v d0 k).1
          (dimsAtLevel v d0 k).2.1 (dimsAtLevel v d0 k).2.2) = true →
        (dimsAtLevel v d0 k).2.2 % 2 = 0 ∧ 3 ≤ (dimsAtLevel v d0 k).2.2)) := by
  refine ⟨?_, ?_, ?_, by decide, ?_⟩
  · intro nCy nCz ldir hl
    by_cases h1 : nCy = 2 <;> by_cases h2 : nCz = 2 <;>
      interval_cases ldir <;> simp [smoothingEffLdir, lineRelaxX, h1, h2]
  · intro nCx nCz ldir hl
    by_cases h1 : nCx = 2 <;> by_cases h2 : nCz = 2 <;>
      interval_cases ldir <;> simp [smoothingEffLdir, lineRelaxY, h1, h2]
  · intro nCx nCy ldir hl
    by_cases h1 : nCx = 2 <;> by_cases h2 : nCy = 2 <;>
      interval_cases ldir <;> simp [smoothingEffLdir, lineRelaxZ, h1, h2]
  · intro v cap d0 k hv hk
    have hnice := dims_nice v cap d0 hv k (le_of_lt hk)
    have hna := notAll_blocked v cap d0 k hv hk
    rw [← hnice] at hna
    obtain ⟨hgx, hgy, hgz⟩ := chooseRdir_good v (dimsAtLevel v d0 k).1
      (dimsAtLevel v d0 k).2.1 (dimsAtLevel v d0 k).2.2 hna
    refine ⟨?_, ?_, ?_⟩
    · intro hcx
      have := hgx hcx
      unfold axisNoCoarsen at this
      omega
    · intro hcy
      have := hgy hcy
      unfold axisNoCoarsen at this
      omega
    · intro hcz
      have := hgz hcz
      unfold axisNoCoarsen at this
      omega

/-- Witness for C6: ldir 7 on a grid with two cells along x, and the
selection at level 0 of a 4 x 4 x 4 grid under full coarsening. -/
theorem smoothing_linerelax_and_coarsening_guards_witness :
    lineRelaxX (smoothingEffLdir 2 5 5 7) = false ∧
    ((coarsensX (chooseRdir 0 (dimsAtLevel 0 (4, 4, 4) 0).1
        (dimsAtLevel 0 (4, 4, 4) 0).2.1 (dimsAtLevel 0 (4, 4, 4) 0).2.2) = true →
      (dimsAtLevel 0 (4, 4, 4) 0).1 % 2 = 0 ∧ 3 ≤ (dimsAtLevel 0 (4, 4, 4) 0).1) ∧
    (coarsensY (chooseRdir 0 (dimsAtLevel 0 (4, 4, 4) 0).1
        (dimsAtLevel 0 (4, 4, 4) 0).2.1 (dimsAtLevel 0 (4, 4, 4) 0).2.2) = true →
      (dimsAtLevel 0 (4, 4, 4) 0).2.1 % 2 = 0 ∧ 3 ≤ (dimsAtLevel 0 (4, 4, 4) 0).2.1) ∧
    (coarsensZ (chooseRdir 0 (dimsAtLevel 0 (4, 4, 4) 0).1
        (dimsAtLevel 0 (4, 4, 4) 0).2.1 (dimsAtLevel 0 (4, 4, 4) 0).2.2) = true →
      (dimsAtLevel 0 (4, 4, 4) 0).2.2 % 2 = 0 ∧ 3 ≤ (dimsAtLevel 0 (4, 4, 4) 0).2.2)) :=
  ⟨smoothing_linerelax_and_coarsening_guards.1 5 5 7 (by norm_num),
   smoothing_linerelax_and_coarsening_guards.2.2.2.2 0 none (4, 4, 4) 0
     (by norm_num)
     (by
       have h4 : 0 < divCount 4 := by
         rw [divCount]
         norm_num
       have hc : clevelArr none (4, 4, 4) 0 = divCount 4 := by
         simp [clevelArr, axisClevel]
       omega)⟩

/-- C8 counterexample to the claim as stated: with sslsolver enabled, an
F-cycle preconditioner, semicoarsening 1213 (cycle [1,2,1,3], length 4),
no line relaxation, and user maxit 50, the outer Krylov iteration limit is
50 and not the claimed max of the cycle lengths (4). -/
theorem sslsolver_outer_maxit_claim_counterexample :
    (sslAndMgMaxit true true 50 (rcycleOf (MultiInput.numIn 1213))
      (lcycleOf (MultiInput.boolIn false))).1 = 50 ∧
    max (rcycleOf (MultiInput.numIn 1213)).length
      (lcycleOf (MultiInput.boolIn false)).length = 4 ∧
    (50 : ℕ) ≠ 4 := by
  decide

/-! ## Additivity of the model restriction (C7) -/

/-- Summing consecutive pairs over half the range equals the full sum. -/
theorem sum_pair (f : ℕ → ℂ) (n : ℕ) :
    ∑ i ∈ Finset.range n, (f (2 * i) + f (2 * i + 1)) =
      ∑ i ∈ Finset.range (2 * n), f i := by
  induction n with
  | zero => simp
  | succ m ih =>
    rw [Finset.sum_range_succ, ih]
    have h2 : 2 * (m + 1) = 2 * m + 1 + 1 := by ring
    rw [h2, Finset.sum_range_succ, Finset.sum_range_succ]
    ring

/-- Pair-sum form of a full sum over an even range. -/
theorem sum_range_even (n : ℕ) (f : ℕ → ℂ) (h : n % 2 = 0) :
    ∑ i ∈ Finset.range (n / 2), (f (2 * i) + f (2 * i + 1)) =
      ∑ i ∈ Finset.range n, f i := by
  have hn : 2 * (n / 2) = n := by omega
  calc
    ∑ i ∈ Finset.range (n / 2), (f (2 * i) + f (2 * i + 1)) =
        ∑ i ∈ Finset.range (2 * (n / 2)), f i := sum_pair f (n / 2)
    _ = ∑ i ∈ Finset.range n, f i := by rw [hn]

/-- Collapsing a paired x-axis of a triple sum. -/
theorem collapse_x (nx ny nz : ℕ) (q : ℕ → ℕ → ℕ → ℂ) (hnx : nx % 2 = 0) :
    ∑ i ∈ Finset.range (nx / 2), ∑ j ∈ Finset.range ny, ∑ k ∈ Finset.range nz,
        (q (2 * i) j k + q (2 * i + 1) j k) =
      ∑ i ∈ Finset.range nx, ∑ j ∈ Finset.range ny, ∑ k ∈ Finset.range nz,
        q i j k := by
  rw [← sum_range_even nx
    (fun i => ∑ j ∈ Finset.range ny, ∑ k ∈ Finset.range nz, q i j k) hnx]
  refine Finset.sum_congr rfl ?_
  intro i _
  simp only [Finset.sum_add_distrib]

/-- Collapsing a paired y-axis of a triple sum. -/
theorem collapse_y (nx ny nz : ℕ) (q : ℕ → ℕ → ℕ → ℂ) (hny : ny % 2 = 0) :
    ∑ i ∈ Finset.range nx, ∑ j ∈ Finset.range (ny / 2), ∑ k ∈ Finset.range nz,
        (q i (2 * j) k + q i (2 * j + 1) k) =
      ∑ i ∈ Finset.range nx, ∑ j ∈ Finset.range ny, ∑ k ∈ Finset.range nz,
        q i j k := by
  refine Finset.sum_congr rfl ?_
  intro i _
  rw [← sum_range_even ny (fun j => ∑ k ∈ Finset.range nz, q i j k) hny]
  refine Finset.sum_congr rfl ?_
  intro j _
  simp only [Finset.sum_add_distrib]

/-- Collapsing a paired z-axis of a triple sum. -/
theorem collapse_z (nx ny nz : ℕ) (q : ℕ → ℕ → ℕ → ℂ) (hnz : nz % 2 = 0) :
    ∑ i ∈ Finset.range nx, ∑ j ∈ Finset.range ny, ∑ k ∈ Finset.range (nz / 2),
        (q i j (2 * k) + q i j (2 * k + 1)) =
      ∑ i ∈ Finset.range nx, ∑ j ∈ Finset.range ny, ∑ k ∈ Finset.range nz,
        q i j k := by
  refine Finset.sum_congr rfl ?_
  intro i _
  refine Finset.sum_congr rfl ?_
  intro j _
  exact sum_range_even nz (fun k => q i j k) hnz

/-- C7: for every restriction direction code 0..6 and a model array whose
dimensions are even along the coarsened axes, the coarse model produced by
`restr` (each coarse cell the sum of the fine cells that make it up) has
the same total sum as the fine model. -/
theorem restriction_eta_additive (rdir : ℕ) (hr : rdir ≤ 6) (nx ny nz : ℕ)
    (p : ℕ → ℕ → ℕ → ℂ)
    (hx : coarsensX rdir = true → nx % 2 = 0)
    (hy : coarsensY rdir = true → ny % 2 = 0)
    (hz : coarsensZ rdir = true → nz % 2 = 0) :
    totalSum (if coarsensX rdir then nx / 2 else nx)
      (if coarsensY rdir then ny / 2 else ny)
      (if coarsensZ rdir then nz / 2 else nz)
      (restrEta rdir p) = totalSum nx ny nz p := by
  interval_cases rdir
  · -- full coarsening
    have hnx : nx % 2 = 0 := hx (by decide)
    have hny : ny % 2 = 0 := hy (by decide)
    have hnz : nz % 2 = 0 := hz (by decide)
    show
      ∑ i ∈ Finset.range (nx / 2), ∑ j ∈ Finset.range (ny / 2),
          ∑ k ∈ Finset.range (nz / 2),
            (p (2 * i) (2 * j) (2 * k) + p (2 * i + 1) (2 * j) (2 * k) +
              (p (2 * i) (2 * j) (2 * k + 1) +
                p (2 * i + 1) (2 * j) (2 * k + 1)) +
              (p (2 * i) (2 * j + 1) (2 * k) +
                p (2 * i + 1) (2 * j + 1) (2 * k)) +
              (p (2 * i) (2 * j + 1) (2 * k + 1) +
                p (2 * i + 1) (2 * j + 1) (2 * k + 1))) =
        totalSum nx ny nz p
    calc
      ∑ i ∈ Finset.range (nx / 2), ∑ j ∈ Finset.range (ny / 2),
          ∑ k ∈ Finset.range (nz / 2),
            (p (2 * i) (2 * j) (2 * k) + p (2 * i + 1) (2 * j) (2 * k) +
              (p (2 * i) (2 * j) (2 * k + 1) +
                p (2 * i + 1) (2 * j) (2 * k + 1)) +
              (p (2 * i) (2 * j + 1) (2 * k) +
                p (2 * i + 1) (2 * j + 1) (2 * k)) +
              (p (2 * i) (2 * j + 1) (2 * k + 1) +
                p (2 * i + 1) (2 * j + 1) (2 * k + 1))) =
          ∑ i ∈ Finset.range (nx / 2), ∑ j ∈ Finset.range (ny / 2),
            ∑ k ∈ Finset.range (nz / 2),
              ((p (2 * i) (2 * j) (2 * k) + p (2 * i + 1) (2 * j) (2 * k) +
                  (p (2 * i) (2 * j + 1) (2 * k) +
                    p (2 * i + 1) (2 * j + 1) (2 * k))) +
                (p (2 * i) (2 * j) (2 * k + 1) +
                  p (2 * i + 1) (2 * j) (2 * k + 1) +
                  (p (2 * i) (2 * j + 1) (2 * k + 1) +
                    p (2 * i + 1) (2 * j + 1) (2 * k + 1)))) := by
        refine Finset.sum_congr rfl fun i _ => Finset.sum_congr rfl
          fun j _ => Finset.sum_congr rfl fun k _ => by ring
      _ = ∑ i ∈ Finset.range (nx / 2), ∑ j ∈ Finset.range (ny / 2),
            ∑ m ∈ Finset.range nz,
              (p (2 * i) (2 * j) m + p (2 * i + 1) (2 * j) m +
                (p (2 * i) (2 * j + 1) m + p (2 * i + 1) (2 * j + 1) m)) :=
        collapse_z (nx / 2) (ny / 2) nz
          (fun i j m => p (2 * i) (2 * j) m + p (2 * i + 1) (2 * j) m +
            (p (2 * i) (2 * j + 1) m + p (2 * i + 1) (2 * j + 1) m)) hnz
      _ = ∑ i ∈ Finset.range (nx / 2), ∑ l ∈ Finset.range ny,
            ∑ m ∈ Finset.range nz, (p (2 * i) l m + p (2 * i + 1) l m) :=
        collapse_y (nx / 2) ny nz
          (fun i l m => p (2 * i) l m + p (2 * i + 1) l m) hny
      _ = totalSum nx ny nz p := collapse_x nx ny nz p hnx
  · -- coarsen y and z
    have hny : ny % 2 = 0 := hy (by decide)
    have hnz : nz % 2 = 0 := hz (by decide)
    show
      ∑ i ∈ Finset.range nx, ∑ j ∈ Finset.range (ny / 2),
          ∑ k ∈ Finset.range (nz / 2),
            (p i (2 * j) (2 * k) + p i (2 * j + 1) (2 * k) +
              (p i (2 * j) (2 * k + 1) + p i (2 * j + 1) (2 * k + 1))) =
        totalSum nx ny nz p
    calc
      ∑ i ∈ Finset.range nx, ∑ j ∈ Finset.range (ny / 2),
          ∑ k ∈ Finset.range (nz / 2),
            (p i (2 * j) (2 * k) + p i (2 * j + 1) (2 * k) +
              (p i (2 * j) (2 * k + 1) + p i (2 * j + 1) (2 * k + 1))) =
          ∑ i ∈ Finset.range nx, ∑ j ∈ Finset.range (ny / 2),
            ∑ m ∈ Finset.range nz, (p i (2 * j) m + p i (2 * j + 1) m) :=
        collapse_z nx (ny / 2) nz
          (fun i j m => p i (2 * j) m + p i (2 * j + 1) m) hnz
      _ = totalSum nx ny nz p := collapse_y nx ny nz p hny
  · -- coarsen x and z
    have hnx : nx % 2 = 0 := hx (by decide)
    have hnz : nz % 2 = 0 := hz (by decide)
    show
      ∑ i ∈ Finset.range (nx / 2), ∑ j ∈ Finset.range ny,
          ∑ k ∈ Finset.range (nz / 2),
            (p (2 * i) j (2 * k) + p (2 * i + 1) j (2 * k) +
              (p (2 * i) j (2 * k + 1) + p (2 * i + 1) j (2 * k + 1))) =
        totalSum nx ny nz p
    calc
      ∑ i ∈ Finset.range (nx / 2), ∑ j ∈ Finset.range ny,
          ∑ k ∈ Finset.range (nz / 2),
            (p (2 * i) j (2 * k) + p (2 * i + 1) j (2 * k) +
              (p (2 * i) j (2 * k + 1) + p (2 * i + 1) j (2 * k + 1))) =
          ∑ i ∈ Finset.range (nx / 2), ∑ j ∈ Finset.range ny,
            ∑ m ∈ Finset.range nz, (p (2 * i) j m + p (2 * i + 1) j m) :=
        collapse_z (nx / 2) ny nz
          (fun i j m => p (2 * i) j m + p (2 * i + 1) j m) hnz
      _ = totalSum nx ny nz p := collapse_x nx ny nz p hnx
  · -- coarsen x and y
    have hnx : nx % 2 = 0 := hx (by decide)
    have hny : ny % 2 = 0 := hy (by decide)
    show
      ∑ i ∈ Finset.range (nx / 2), ∑ j ∈ Finset.range (ny / 2),
          ∑ k ∈ Finset.range nz,
            (p (2 * i) (2 * j) k + p (2 * i + 1) (2 * j) k +
              (p (2 * i) (2 * j + 1) k + p (2 * i + 1) (2 * j + 1) k)) =
        totalSum nx ny nz p
    calc
      ∑ i ∈ Finset.range (nx / 2), ∑ j ∈ Finset.range (ny / 2),
          ∑ k ∈ Finset.range nz,
            (p (2 * i) (2 * j) k + p (2 * i + 1) (2 * j) k +
              (p (2 * i) (2 * j + 1) k + p (2 * i + 1) (2 * j + 1) k)) =
          ∑ i ∈ Finset.range (nx / 2), ∑ l ∈ Finset.range ny,
            ∑ k ∈ Finset.range nz, (p (2 * i) l k + p (2 * i + 1) l k) :=
        collapse_y (nx / 2) ny nz
          (fun i l k => p (2 * i) l k + p (2 * i + 1) l k) hny
      _ = totalSum nx ny nz p := collapse_x nx ny nz p hnx
  · -- coarsen x only
    have hnx : nx % 2 = 0 := hx (by decide)
    show
      ∑ i ∈ Finset.range (nx / 2), ∑ j ∈ Finset.range ny,
          ∑ k ∈ Finset.range nz, (p (2 * i) j k + p (2 * i + 1) j k) =
        totalSum nx ny nz p
    exact collapse_x nx ny nz p hnx
  · -- coarsen y only
    have hny : ny % 2 = 0 := hy (by decide)
    show
      ∑ i ∈ Finset.range nx, ∑ j ∈ Finset.range (ny / 2),
          ∑ k ∈ Finset.range nz, (p i (2 * j) k + p i (2 * j + 1) k) =
        totalSum nx ny nz p
    exact collapse_y nx ny nz p hny
  · -- coarsen z only
    have hnz : nz % 2 = 0 := hz (by decide)
    show
      ∑ i ∈ Finset.range nx, ∑ j ∈ Finset.range ny,
          ∑ k ∈ Finset.range (nz / 2), (p i j (2 * k) + p i j (2 * k + 1)) =
        totalSum nx ny nz p
    exact collapse_z nx ny nz p hnz

/-- Witness for C7 at rdir = 0 on a 2 x 2 x 2 grid of ones. -/
theorem restriction_eta_additive_witness :
    totalSum (if coarsensX 0 then 2 / 2 else 2) (if coarsensY 0 then 2 / 2 else 2)
      (if coarsensZ 0 then 2 / 2 else 2) (restrEta 0 (fun _ _ _ => 1)) =
      totalSum 2 2 2 (fun _ _ _ => 1) :=
  restriction_eta_additive 0 (by norm_num) 2 2 2 (fun _ _ _ => 1)
    (fun _ => by norm_num) (fun _ => by norm_num) (fun _ => by norm_num)

/-! ## PEC preservation (C2) -/

/-- C2: the coarse source field after restriction and the fine field after
prolongation satisfy PEC (outer tangential edges zero), the operator apply
returns a PEC field, and smoothing preserves PEC, so outer tangential
edges remain zero throughout a solve. -/
theorem pec_preserved_throughout (nx ny nz : ℕ) :
    (∀ raw, pecField nx ny nz (restrictionSourceField nx ny nz raw)) ∧
    (∀ efieldPlus, pecField nx ny nz (prolongationResult nx ny nz efieldPlus)) ∧
    (∀ interior, pecField nx ny nz (amatXModel nx ny nz interior)) ∧
    (∀ upd e, pecField nx ny nz e →
      pecField nx ny nz (smoothingModel nx ny nz upd e)) := by
  refine ⟨?_, ?_, ?_, ?_⟩
  · intro raw
    refine ⟨?_, ?_, ?_⟩ <;> intro i j k h <;>
      simp [restrictionSourceField, ensurePec, h]
  · intro efieldPlus
    refine ⟨?_, ?_, ?_⟩ <;> intro i j k h <;>
      simp [prolongationResult, ensurePec, h]
  · intro interior
    refine ⟨?_, ?_, ?_⟩ <;> intro i j k h <;>
      simp [amatXModel, h]
  · intro upd e he
    refine ⟨?_, ?_, ?_⟩ <;> intro i j k h
    · simp only [smoothingModel, if_pos h]
      exact he.1 i j k h
    · simp only [smoothingModel, if_pos h]
      exact he.2.1 i j k h
    · simp only [smoothingModel, if_pos h]
      exact he.2.2 i j k h

/-- All-zero edge field used to instantiate the PEC hypothesis. -/
def zeroEdgeField : EdgeField3 :=
  { fx := fun _ _ _ => 0, fy := fun _ _ _ => 0, fz := fun _ _ _ => 0 }

/-- One-valued edge field used as an arbitrary interior update. -/
def oneEdgeField : EdgeField3 :=
  { fx := fun _ _ _ => 1, fy := fun _ _ _ => 1, fz := fun _ _ _ => 1 }

/-- Witness for C2: smoothing (with an arbitrary nonzero interior update)
preserves PEC of the zero field on a 2 x 2 x 2 grid. -/
theorem pec_preserved_throughout_witness :
    pecField 2 2 2 zeroEdgeField ∧
    pecField 2 2 2 (smoothingModel 2 2 2 oneEdgeField zeroEdgeField) := by
  have hz : pecField 2 2 2 zeroEdgeField := by
    refine ⟨?_, ?_, ?_⟩ <;> intro i j k h <;> simp [zeroEdgeField]
  exact ⟨hz, (pec_preserved_throughout 2 2 2).2.2.2 oneEdgeField zeroEdgeField hz⟩

end Emg3d
